import Mathlib

/-!
Verification of the TRICAL tri-axial sensor calibration library.

The development shallowly embeds the C sources (`src/3dmath.h`, `src/TRICAL.c`)
over real arithmetic: float values become real numbers, in-place array writes
become `Function.update` on total functions `ℕ → ℝ`, and the C loops become
structural recursions that perform the writes in the same order as the code.
Parts of the repository that are referenced but whose sources are absent
(`TRICAL.h`, `filter.c`) are modelled from the design specification; each such
definition carries a doc comment starting with `Modelled from the spec:`.
-/

set_option maxHeartbeats 1600000

namespace TRICAL

/-- Real model of the `recip` macro of `3dmath.h` (the portable branch):
`recip(a) = 1.0f / a`. -/
noncomputable def recip (a : ℝ) : ℝ := 1 / a

/-- Real model of the `fsqrt` macro of `3dmath.h` (the portable branch):
`fsqrt(a) = (float)sqrt(a)`. -/
noncomputable def fsqrt (a : ℝ) : ℝ := Real.sqrt a

/-- The accumulator `s` of `matrix_cholesky_decomp_scale_f`:
`for (kn = 0; kn < j*dim; kn += dim) s += L[i + kn] * L[j + kn];`
so `kn` ranges over `k * dim` for `k < j`. -/
def cholSum (dim : ℕ) (L : ℕ → ℝ) (i j : ℕ) : ℝ :=
  ∑ kk in Finset.range j, L (i + kk * dim) * L (j + kk * dim)

/-- One write of the inner loop body of `matrix_cholesky_decomp_scale_f`:
`L[i + jn] = (i == j) ? fsqrt(A[i + in]*mul - s) : recip(L[j + jn]) * (A[i + jn]*mul - s);`
with `in = i*dim`, `jn = j*dim`. -/
noncomputable def cholWrite (dim : ℕ) (A : ℕ → ℝ) (mul : ℝ) (i j : ℕ) (L : ℕ → ℝ) : ℕ → ℝ :=
  Function.update L (i + j * dim)
    (if i = j then fsqrt (A (i + i * dim) * mul - cholSum dim L i j)
     else recip (L (j + j * dim)) * (A (i + j * dim) * mul - cholSum dim L i j))

/-- The first statement of the outer loop body:
`L[i + 0] = (i == 0) ? fsqrt(A[i + in]*mul) : recip(L[0]) * (A[i]*mul);`. -/
noncomputable def cholWrite0 (dim : ℕ) (A : ℕ → ℝ) (mul : ℝ) (i : ℕ) (L : ℕ → ℝ) : ℕ → ℝ :=
  Function.update L i
    (if i = 0 then fsqrt (A (i + i * dim) * mul) else recip (L 0) * (A i * mul))

/-- The inner loop `for (j = 1, jn = dim; j <= i; j++, jn += dim)` of
`matrix_cholesky_decomp_scale_f`, performing the writes for `j = 1, ..., stop`
in increasing order. -/
noncomputable def cholInner (dim : ℕ) (A : ℕ → ℝ) (mul : ℝ) (i : ℕ) : ℕ → (ℕ → ℝ) → (ℕ → ℝ)
  | 0, L => L
  | j + 1, L => cholWrite dim A mul i (j + 1) (cholInner dim A mul i j L)

/-- The outer loop `for (i = 0, in = 0; i < dim; i++, in += dim)` of
`matrix_cholesky_decomp_scale_f`, processing rows `0, ..., m-1` in increasing
order; each row performs the `j = 0` write and then the inner loop up to `j = i`. -/
noncomputable def cholOuter (dim : ℕ) (A : ℕ → ℝ) (mul : ℝ) : ℕ → (ℕ → ℝ) → (ℕ → ℝ)
  | 0, L => L
  | i + 1, L => cholInner dim A mul i i (cholWrite0 dim A mul i (cholOuter dim A mul i L))

/-- `matrix_cholesky_decomp_scale_f(dim, L, A, mul)` from `3dmath.h`: in-place
scaled Cholesky decomposition writing the lower triangle of `L` in column-major
layout (entry (row i, column j) at flat index `i + j*dim`); positions above the
diagonal are never written and keep the content of the initial buffer `L`. -/
noncomputable def matrix_cholesky_decomp_scale_f (dim : ℕ) (L : ℕ → ℝ) (A : ℕ → ℝ)
    (mul : ℝ) : ℕ → ℝ :=
  cholOuter dim A mul dim L

/-- The value that `matrix_cholesky_decomp_scale_f` stores at position
(row i, column j), `j ≤ i`, expressed as a recurrence on positions.  The
program computes entries in an order (rows outer, columns inner) that respects
exactly these data dependencies, which `cholesky_decomp_spec` below proves. -/
noncomputable def cholElemFlat (dim : ℕ) (A : ℕ → ℝ) (mul : ℝ) : ℕ → ℕ → ℝ
  | i, j =>
    if h : j < i then
      recip (cholElemFlat dim A mul j j) *
        (A (i + j * dim) * mul -
          ∑ p in (Finset.range j).attach, cholElemFlat dim A mul i p.1 * cholElemFlat dim A mul j p.1)
    else
      fsqrt (A (i + i * dim) * mul -
        ∑ p in (Finset.range i).attach, cholElemFlat dim A mul i p.1 ^ 2)
termination_by i j => i + j
decreasing_by
  · omega
  · have hp := Finset.mem_range.mp p.2; omega
  · have hp := Finset.mem_range.mp p.2; omega
  · have hp := Finset.mem_range.mp p.2; omega

/-- The column-major flat array of an `n × n` matrix given as a function of
(row, column). -/
def colMajor (n : ℕ) (A : ℕ → ℕ → ℝ) : ℕ → ℝ := fun idx => A (idx % n) (idx / n)

/-- The recurrence entry (row i, column j) of the scaled Cholesky factor of the
matrix `A`, as computed by `matrix_cholesky_decomp_scale_f` on the column-major
flattening of `A`. -/
noncomputable def cholE (n : ℕ) (A : ℕ → ℕ → ℝ) (k : ℝ) (i j : ℕ) : ℝ :=
  cholElemFlat n (colMajor n A) k i j

/-- The argument of the square root at diagonal step `i` of the scaled Cholesky
recurrence (the `i`-th pivot). -/
noncomputable def cholPivot (n : ℕ) (A : ℕ → ℕ → ℝ) (k : ℝ) (i : ℕ) : ℝ :=
  k * A i i - ∑ p in Finset.range i, cholE n A k i p ^ 2

/-- Back substitution against the transposed lower-triangular factor: the
auxiliary vector `z` with `z i = 1`, `z p = -(Σ_(p < q ≤ i) f q p * z q) / f p p`
for `p < i`, and `z p = 0` for `p > i`; used to show pivots stay positive. -/
noncomputable def backSolve (f : ℕ → ℕ → ℝ) (i : ℕ) : ℕ → ℝ
  | p =>
    if p = i then 1
    else if _hp : p < i then
      -(∑ q in (Finset.Ioc p i).attach, f q.1 p * backSolve f i q.1) / f p p
    else 0
termination_by p => i - p
decreasing_by
  have hq := Finset.mem_Ioc.mp q.2
  omega

/-- The output array of `matrix_cholesky_decomp_scale_f` applied to the
column-major flattening of the matrix `A` with scale `k`, starting from the
buffer `L0`. -/
noncomputable def choleskyOutput (n : ℕ) (A : ℕ → ℕ → ℝ) (k : ℝ) (L0 : ℕ → ℝ) : ℕ → ℝ :=
  matrix_cholesky_decomp_scale_f n L0 (colMajor n A) k

/-- The 4 × 4 positive-definite matrix `m1` of the reference test
`MatrixMath.CholeskyLLT` in `test/test_3dmath.cpp`, as a flat array
(the matrix is symmetric, so row-major and column-major listings agree). -/
def cholTestA : ℕ → ℝ := fun idx =>
  if idx = 0 then 18 else if idx = 1 then 22 else if idx = 2 then 54 else if idx = 3 then 42
  else if idx = 4 then 22 else if idx = 5 then 70 else if idx = 6 then 86 else if idx = 7 then 62
  else if idx = 8 then 54 else if idx = 9 then 86 else if idx = 10 then 174
  else if idx = 11 then 134
  else if idx = 12 then 42 else if idx = 13 then 62 else if idx = 14 then 134
  else if idx = 15 then 106
  else 0

/-- The output of `matrix_cholesky_decomp_scale_f(4, m1, m1, 1.0)` as invoked
by the reference test (the test decomposes in place, which is equivalent since
each input entry is read exactly when it is overwritten). -/
noncomputable def cholTestOut : ℕ → ℝ :=
  matrix_cholesky_decomp_scale_f 4 cholTestA cholTestA 1

/-- Modelled from the spec: the Calibration State record declared in the
missing header `TRICAL.h` (only `TRICAL.c`'s uses of its fields are visible):
a 9-entry error state (spec name `error_state`, field name `state` as used by
the code), an 81-entry row-major 9 × 9 covariance, the expected field norm,
the measurement noise standard deviation, and the update counter. -/
structure TRICAL_instance_t where
  state : ℕ → ℝ
  state_covariance : ℕ → ℝ
  field_norm : ℝ
  measurement_noise : ℝ
  measurement_count : ℕ

/-- Modelled from the spec: `TRICAL_STATE_DIM` of the missing `TRICAL.h`, the
dimension 9 of the error state. -/
def TRICAL_STATE_DIM : ℕ := 9

/-- The C constant `FLT_EPSILON` of `float.h`, `2^-23`, used by
`TRICAL_norm_set` as the no-op threshold. -/
noncomputable def FLT_EPSILON : ℝ := 1 / 8388608

/-- `TRICAL_init` from `TRICAL.c`: `memset` the instance to zero, set
`field_norm = 1.0f` and `measurement_noise = 1e-6f`, then write `1e-2f` at
covariance indices `0, 10, 20, ..., 80` (the loop `i < 81` stepping by 10),
which are the diagonal slots of the row-major 9 × 9 covariance.  The result
does not depend on the previous contents, so re-initialization resets. -/
def TRICAL_init (_inst : TRICAL_instance_t) : TRICAL_instance_t where
  state := fun _ => 0
  state_covariance := fun i =>
    if i < TRICAL_STATE_DIM * TRICAL_STATE_DIM ∧ i % 10 = 0 then 1e-2 else 0
  field_norm := 1.0
  measurement_noise := 1e-6
  measurement_count := 0

/-- `TRICAL_norm_set` from `TRICAL.c`: a no-op when the new norm is within
`FLT_EPSILON` of the current one; otherwise every entry of `state` (all
`TRICAL_STATE_DIM` of them) is multiplied by `norm / field_norm`, every entry
of `state_covariance` by `(norm*norm) / (field_norm*field_norm)`, and
`field_norm` is set to `norm`. -/
noncomputable def TRICAL_norm_set (inst : TRICAL_instance_t) (norm : ℝ) : TRICAL_instance_t :=
  if |norm - inst.field_norm| < FLT_EPSILON then inst
  else
    { inst with
      state := fun i =>
        if i < TRICAL_STATE_DIM then inst.state i * (norm / inst.field_norm)
        else inst.state i
      state_covariance := fun i =>
        if i < TRICAL_STATE_DIM * TRICAL_STATE_DIM then
          inst.state_covariance i * ((norm * norm) / (inst.field_norm * inst.field_norm))
        else inst.state_covariance i
      field_norm := norm }

/-- `TRICAL_norm_get` from `TRICAL.c`: returns `field_norm`; the instance is
only read, which the returned instance component records. -/
def TRICAL_norm_get (inst : TRICAL_instance_t) : ℝ × TRICAL_instance_t :=
  (inst.field_norm, inst)

/-- `TRICAL_noise_set` from `TRICAL.c`: stores `noise` in
`measurement_noise`. -/
def TRICAL_noise_set (inst : TRICAL_instance_t) (noise : ℝ) : TRICAL_instance_t :=
  { inst with measurement_noise := noise }

/-- `TRICAL_noise_get` from `TRICAL.c`. -/
def TRICAL_noise_get (inst : TRICAL_instance_t) : ℝ × TRICAL_instance_t :=
  (inst.measurement_noise, inst)

/-- `TRICAL_measurement_count_get` from `TRICAL.c`. -/
def TRICAL_measurement_count_get (inst : TRICAL_instance_t) : ℕ × TRICAL_instance_t :=
  (inst.measurement_count, inst)

/-- `TRICAL_estimate_get` from `TRICAL.c`: copies `state[0..2]` into the bias
buffer and expands the six stored scale entries `state[3..8]` into the full
symmetric 3 × 3 matrix; returns the (bias buffer, scale buffer, instance)
after the call. -/
def TRICAL_estimate_get (inst : TRICAL_instance_t) (bias_estimate scale_estimate : ℕ → ℝ) :
    (ℕ → ℝ) × (ℕ → ℝ) × TRICAL_instance_t :=
  (fun i => if i < 3 then inst.state i else bias_estimate i,
   fun i =>
     if i = 0 then inst.state 3 else if i = 1 then inst.state 4
     else if i = 2 then inst.state 5
     else if i = 3 then inst.state 4 else if i = 4 then inst.state 6
     else if i = 5 then inst.state 7
     else if i = 6 then inst.state 5 else if i = 7 then inst.state 7
     else if i = 8 then inst.state 8
     else scale_estimate i,
   inst)

/-- `TRICAL_estimate_get_ext` from `TRICAL.c`: `TRICAL_estimate_get` plus the
bias variances from the covariance diagonal entries `0,1,2` and the scale
variances from diagonal entries `3..8` expanded by the same symmetric
convention. -/
def TRICAL_estimate_get_ext (inst : TRICAL_instance_t)
    (bias_estimate scale_estimate bias_estimate_variance scale_estimate_variance : ℕ → ℝ) :
    (ℕ → ℝ) × (ℕ → ℝ) × (ℕ → ℝ) × (ℕ → ℝ) × TRICAL_instance_t :=
  let r := TRICAL_estimate_get inst bias_estimate scale_estimate
  (r.1, r.2.1,
   fun i =>
     if i = 0 then inst.state_covariance (0 * 9 + 0)
     else if i = 1 then inst.state_covariance (1 * 9 + 1)
     else if i = 2 then inst.state_covariance (2 * 9 + 2)
     else bias_estimate_variance i,
   fun i =>
     if i = 0 then inst.state_covariance (3 * 9 + 3)
     else if i = 1 then inst.state_covariance (4 * 9 + 4)
     else if i = 2 then inst.state_covariance (5 * 9 + 5)
     else if i = 3 then inst.state_covariance (4 * 9 + 4)
     else if i = 4 then inst.state_covariance (6 * 9 + 6)
     else if i = 5 then inst.state_covariance (7 * 9 + 7)
     else if i = 6 then inst.state_covariance (5 * 9 + 5)
     else if i = 7 then inst.state_covariance (7 * 9 + 7)
     else if i = 8 then inst.state_covariance (8 * 9 + 8)
     else scale_estimate_variance i,
   r.2.2)

/-- Modelled from the spec: the symmetric 3 × 3 scale/cross-coupling matrix
expanded from error-state entries 3..8 by the documented convention
(entry (0,0) = idx 3, (0,1) = (1,0) = idx 4, (0,2) = (2,0) = idx 5,
(1,1) = idx 6, (1,2) = (2,1) = idx 7, (2,2) = idx 8). -/
def scaleMatrixOf (state : ℕ → ℝ) : Matrix (Fin 3) (Fin 3) ℝ :=
  Matrix.of
    ![![state 3, state 4, state 5],
      ![state 4, state 6, state 7],
      ![state 5, state 7, state 8]]

/-- Modelled from the spec: `_trical_measurement_calibrate` of the missing
`filter.c`.  Per section 4.3 the calibrated vector is the scale-matrix inverse
applied to (raw minus bias); a pure function of the error state and the raw
measurement. -/
noncomputable def trical_measurement_calibrate (state measurement : ℕ → ℝ) : ℕ → ℝ := fun c =>
  if h : c < 3 then
    (scaleMatrixOf state)⁻¹.mulVec (fun r : Fin 3 => measurement r.1 - state r.1) ⟨c, h⟩
  else 0

/-- `TRICAL_measurement_calibrate` from `TRICAL.c`: delegates to the internal
calibration transform on `instance->state`, writing the first three entries of
the output buffer; the instance itself is only read. -/
noncomputable def TRICAL_measurement_calibrate (inst : TRICAL_instance_t)
    (measurement calibrated_measurement : ℕ → ℝ) : (ℕ → ℝ) × TRICAL_instance_t :=
  (fun c => if c < 3 then trical_measurement_calibrate inst.state measurement c
   else calibrated_measurement c,
   inst)

/-- Modelled from the spec: the unscented-transform spread parameter lambda of
the missing `filter.c`, following the standard `n + lambda = 3` convention the
spec leaves open. -/
def ukf_lambda : ℝ := 3 - 9

/-- Modelled from the spec: the unscented-transform weights, mean weight
`lambda / (n + lambda)` for the central point and `1 / (2 (n + lambda))` for
the 18 symmetric points. -/
noncomputable def ukf_weight (s : ℕ) : ℝ :=
  if s = 0 then ukf_lambda / (9 + ukf_lambda) else 1 / (2 * (9 + ukf_lambda))

/-- Modelled from the spec: the scaled Cholesky square root of the state
covariance used for sigma-point generation, the one Matrix Kernel Cholesky
call per update (scale `n + lambda`). -/
noncomputable def trical_covariance_sqrt (inst : TRICAL_instance_t) : ℕ → ℝ :=
  matrix_cholesky_decomp_scale_f 9 (fun _ => 0) inst.state_covariance (9 + ukf_lambda)

/-- Modelled from the spec: sigma point `s` of the 19-point set: the mean for
`s = 0`, the mean plus row `s-1` of the square root for `1 ≤ s ≤ 9`, the mean
minus row `s-10` for `10 ≤ s ≤ 18` (row `i` of the column-major factor has its
`d`-th component at flat index `i + d*9`). -/
noncomputable def trical_sigma_point (inst : TRICAL_instance_t) (L : ℕ → ℝ) (s : ℕ) :
    ℕ → ℝ := fun d =>
  if s = 0 then inst.state d
  else if s ≤ 9 then inst.state d + L ((s - 1) + d * 9)
  else inst.state d - L ((s - 10) + d * 9)

/-- Modelled from the spec: the scalar measurement model, the squared norm of
the raw measurement calibrated by the candidate error state (the same
transform as the Measurement Calibrator). -/
noncomputable def trical_measurement_model (x measurement : ℕ → ℝ) : ℝ :=
  ∑ c in Finset.range 3, trical_measurement_calibrate x measurement c ^ 2

/-- Modelled from the spec: the weighted predicted measurement mean over the
19 sigma points. -/
noncomputable def trical_predicted_measurement_mean (inst : TRICAL_instance_t)
    (measurement : ℕ → ℝ) : ℝ :=
  ∑ s in Finset.range 19, ukf_weight s *
    trical_measurement_model (trical_sigma_point inst (trical_covariance_sqrt inst) s)
      measurement

/-- Modelled from the spec: the predicted measurement variance, the weighted
sum of squared deviations of the sigma-point measurements from the predicted
mean, inflated by the square of `measurement_noise`. -/
noncomputable def trical_predicted_measurement_variance (inst : TRICAL_instance_t)
    (measurement : ℕ → ℝ) : ℝ :=
  (∑ s in Finset.range 19, ukf_weight s *
    (trical_measurement_model (trical_sigma_point inst (trical_covariance_sqrt inst) s)
        measurement
      - trical_predicted_measurement_mean inst measurement) ^ 2)
    + inst.measurement_noise ^ 2

/-- Modelled from the spec: the cross covariance between the state sigma-point
deviations and the scalar measurement deviations, a 9-entry vector. -/
noncomputable def trical_cross_covariance (inst : TRICAL_instance_t)
    (measurement : ℕ → ℝ) : ℕ → ℝ := fun d =>
  ∑ s in Finset.range 19, ukf_weight s *
    (trical_sigma_point inst (trical_covariance_sqrt inst) s d - inst.state d) *
    (trical_measurement_model (trical_sigma_point inst (trical_covariance_sqrt inst) s)
        measurement
      - trical_predicted_measurement_mean inst measurement)

/-- Modelled from the spec: `_trical_filter_iterate` of the missing
`filter.c`: one predict+update cycle.  If the predicted measurement variance
is non-positive (degenerate), the correction is skipped and the state and
covariance are left unchanged; otherwise the Kalman gain
(cross covariance / variance) updates the error state by
`gain * (field_norm^2 - predicted mean)` and the covariance by subtracting the
outer product `gain * cross covariance`. -/
noncomputable def trical_filter_iterate (inst : TRICAL_instance_t)
    (measurement : ℕ → ℝ) : TRICAL_instance_t :=
  if trical_predicted_measurement_variance inst measurement ≤ 0 then inst
  else
    { inst with
      state := fun d =>
        if d < 9 then
          inst.state d +
            (trical_cross_covariance inst measurement d /
              trical_predicted_measurement_variance inst measurement) *
            (inst.field_norm ^ 2 - trical_predicted_measurement_mean inst measurement)
        else inst.state d
      state_covariance := fun idx =>
        if idx < 81 then
          inst.state_covariance idx -
            (trical_cross_covariance inst measurement (idx / 9) /
              trical_predicted_measurement_variance inst measurement) *
            trical_cross_covariance inst measurement (idx % 9)
        else inst.state_covariance idx }

/-- `TRICAL_estimate_update` from `TRICAL.c`: runs `_trical_filter_iterate`
and then increments `measurement_count`. -/
noncomputable def TRICAL_estimate_update (inst : TRICAL_instance_t)
    (measurement : ℕ → ℝ) : TRICAL_instance_t :=
  let i2 := trical_filter_iterate inst measurement
  { i2 with measurement_count := i2.measurement_count + 1 }

/-- The public operations of the TRICAL interface, used to state whole-API
invariants. -/
inductive TRICAL_op where
  | init : TRICAL_op
  | norm_set : ℝ → TRICAL_op
  | noise_set : ℝ → TRICAL_op
  | estimate_update : (ℕ → ℝ) → TRICAL_op
  | norm_get : TRICAL_op
  | noise_get : TRICAL_op
  | measurement_count_get : TRICAL_op
  | estimate_get : (ℕ → ℝ) → (ℕ → ℝ) → TRICAL_op
  | estimate_get_ext : (ℕ → ℝ) → (ℕ → ℝ) → (ℕ → ℝ) → (ℕ → ℝ) → TRICAL_op
  | measurement_calibrate : (ℕ → ℝ) → (ℕ → ℝ) → TRICAL_op

/-- The effect of one public operation on the instance. -/
noncomputable def TRICAL_op_step (inst : TRICAL_instance_t) : TRICAL_op → TRICAL_instance_t
  | .init => TRICAL_init inst
  | .norm_set n => TRICAL_norm_set inst n
  | .noise_set s => TRICAL_noise_set inst s
  | .estimate_update m => TRICAL_estimate_update inst m
  | .norm_get => (TRICAL_norm_get inst).2
  | .noise_get => (TRICAL_noise_get inst).2
  | .measurement_count_get => (TRICAL_measurement_count_get inst).2
  | .estimate_get b s => (TRICAL_estimate_get inst b s).2.2
  | .estimate_get_ext b s bv sv => (TRICAL_estimate_get_ext inst b s bv sv).2.2.2.2
  | .measurement_calibrate m c => (TRICAL_measurement_calibrate inst m c).2

/-- The asserted preconditions of the public operations: positive norm for
`TRICAL_norm_set`, positive noise for `TRICAL_noise_set`. -/
def TRICAL_op_pre : TRICAL_op → Prop
  | .norm_set n => 0 < n
  | .noise_set s => 0 < s
  | _ => True

/-- Concrete instance used as a counterexample and witness input for the
`TRICAL_norm_set` claims: unit state, zero covariance, field norm 1. -/
def normSetEx : TRICAL_instance_t where
  state := fun _ => 1
  state_covariance := fun _ => 0
  field_norm := 1
  measurement_noise := 1e-6
  measurement_count := 0

/-- Concrete instance with zero covariance, zero state and zero measurement
noise; its update cycle has predicted measurement variance zero, exercising
the degenerate-variance path. -/
def updateEx : TRICAL_instance_t where
  state := fun _ => 0
  state_covariance := fun _ => 0
  field_norm := 1
  measurement_noise := 0
  measurement_count := 0

theorem cholElemFlat_eq (dim : ℕ) (A : ℕ → ℝ) (mul : ℝ) (i j : ℕ) :
    cholElemFlat dim A mul i j =
      if j < i then
        recip (cholElemFlat dim A mul j j) *
          (A (i + j * dim) * mul -
            ∑ p in Finset.range j, cholElemFlat dim A mul i p * cholElemFlat dim A mul j p)
      else
        fsqrt (A (i + i * dim) * mul -
          ∑ p in Finset.range i, cholElemFlat dim A mul i p ^ 2) := by
  rw [cholElemFlat]
  by_cases h : j < i
  · rw [dif_pos h, if_pos h,
      Finset.sum_attach (Finset.range j)
        (fun p => cholElemFlat dim A mul i p * cholElemFlat dim A mul j p)]
  · rw [dif_neg h, if_neg h,
      Finset.sum_attach (Finset.range i) (fun p => cholElemFlat dim A mul i p ^ 2)]

theorem cholElemFlat_off (dim : ℕ) (A : ℕ → ℝ) (mul : ℝ) {i j : ℕ} (h : j < i) :
    cholElemFlat dim A mul i j =
      recip (cholElemFlat dim A mul j j) *
        (A (i + j * dim) * mul -
          ∑ p in Finset.range j, cholElemFlat dim A mul i p * cholElemFlat dim A mul j p) := by
  rw [cholElemFlat_eq, if_pos h]

theorem cholElemFlat_diag (dim : ℕ) (A : ℕ → ℝ) (mul : ℝ) (i : ℕ) :
    cholElemFlat dim A mul i i =
      fsqrt (A (i + i * dim) * mul - ∑ p in Finset.range i, cholElemFlat dim A mul i p ^ 2) := by
  rw [cholElemFlat_eq, if_neg (lt_irrefl i)]

/-- Column-major flat indices determine the (row, column) pair when the row
index is within range. -/
theorem colIdx_inj {dim i i' j j' : ℕ} (hi : i < dim) (hi' : i' < dim)
    (h : i + j * dim = i' + j' * dim) : i = i' ∧ j = j' := by
  have e1 : (i + j * dim) % dim = i := by
    rw [Nat.add_mul_mod_self_right, Nat.mod_eq_of_lt hi]
  have e2 : (i' + j' * dim) % dim = i' := by
    rw [Nat.add_mul_mod_self_right, Nat.mod_eq_of_lt hi']
  have h1 : i = i' := by rw [h] at e1; omega
  refine ⟨h1, ?_⟩
  subst h1
  have hj : j * dim = j' * dim := by omega
  exact Nat.eq_of_mul_eq_mul_right (by omega) hj

/-- Invariant of the inner loop of `matrix_cholesky_decomp_scale_f`: while
processing row `ii`, after the writes for columns `1, ..., r` the array holds
the recurrence values at all positions of rows below `ii` and at columns
`0, ..., r` of row `ii`, and is untouched elsewhere. -/
theorem cholInner_spec (dim : ℕ) (A : ℕ → ℝ) (mul : ℝ) (ii : ℕ) (hii : ii < dim) :
    ∀ r, r ≤ ii → ∀ L : ℕ → ℝ,
      (∀ i j, j ≤ i → i < ii → L (i + j * dim) = cholElemFlat dim A mul i j) →
      (L ii = cholElemFlat dim A mul ii 0) →
      ((∀ i j, j ≤ i → i < ii →
          cholInner dim A mul ii r L (i + j * dim) = cholElemFlat dim A mul i j) ∧
       (∀ j, j ≤ r → cholInner dim A mul ii r L (ii + j * dim) = cholElemFlat dim A mul ii j) ∧
       (∀ idx, (∀ j, 1 ≤ j → j ≤ r → idx ≠ ii + j * dim) →
          cholInner dim A mul ii r L idx = L idx)) := by
  intro r
  induction r with
  | zero =>
    intro _ L hL hL0
    refine ⟨fun i j hj hi => hL i j hj hi, ?_, fun idx _ => rfl⟩
    intro j hj
    interval_cases j
    simpa using hL0
  | succ r IH =>
    intro hr1 L hL hL0
    obtain ⟨IH1, IH2, IH3⟩ := IH (by omega) L hL hL0
    have hstep : cholInner dim A mul ii (r + 1) L =
        cholWrite dim A mul ii (r + 1) (cholInner dim A mul ii r L) := rfl
    have hrow2 : ∀ kk, kk < r + 1 →
        cholInner dim A mul ii r L ((r + 1) + kk * dim) = cholElemFlat dim A mul (r + 1) kk := by
      intro kk hkk
      rcases Nat.lt_or_ge (r + 1) ii with hlt | hge
      · exact IH1 (r + 1) kk (by omega) hlt
      · have heq : r + 1 = ii := by omega
        rw [heq]
        exact IH2 kk (by omega)
    have hsum : cholSum dim (cholInner dim A mul ii r L) ii (r + 1) =
        ∑ p in Finset.range (r + 1),
          cholElemFlat dim A mul ii p * cholElemFlat dim A mul (r + 1) p := by
      unfold cholSum
      refine Finset.sum_congr rfl ?_
      intro kk hkk
      have hkk' := Finset.mem_range.mp hkk
      rw [IH2 kk (by omega), hrow2 kk hkk']
    have hval : (if ii = r + 1 then
          fsqrt (A (ii + ii * dim) * mul - cholSum dim (cholInner dim A mul ii r L) ii (r + 1))
        else recip (cholInner dim A mul ii r L ((r + 1) + (r + 1) * dim)) *
          (A (ii + (r + 1) * dim) * mul - cholSum dim (cholInner dim A mul ii r L) ii (r + 1)))
        = cholElemFlat dim A mul ii (r + 1) := by
      by_cases hdg : ii = r + 1
      · rw [if_pos hdg, hsum]
        subst hdg
        rw [cholElemFlat_diag]
        congr 2
        refine Finset.sum_congr rfl ?_
        intro p _
        rw [pow_two]
      · have hlt : r + 1 < ii := by omega
        rw [if_neg hdg, hsum, IH1 (r + 1) (r + 1) le_rfl hlt,
          cholElemFlat_off dim A mul hlt]
    refine ⟨?_, ?_, ?_⟩
    · intro i j hj hi
      rw [hstep]
      unfold cholWrite
      rw [Function.update_noteq ?hne]
      case hne =>
        intro hcon
        exact absurd (colIdx_inj (lt_trans hi hii) hii hcon).1 (by omega)
      exact IH1 i j hj hi
    · intro j hj
      rw [hstep]
      unfold cholWrite
      rcases Nat.lt_or_ge j (r + 1) with hjr | hjr
      · rw [Function.update_noteq ?hne2]
        case hne2 =>
          intro hcon
          exact absurd (colIdx_inj hii hii hcon).2 (by omega)
        exact IH2 j (by omega)
      · have hj1 : j = r + 1 := by omega
        subst hj1
        rw [Function.update_same]
        exact hval
    · intro idx hidx
      rw [hstep]
      unfold cholWrite
      rw [Function.update_noteq (hidx (r + 1) (by omega) le_rfl)]
      exact IH3 idx (fun j h1 h2 => hidx j h1 (by omega))

/-- Invariant of the outer loop of `matrix_cholesky_decomp_scale_f`: after
processing rows `0, ..., m-1` the array holds the recurrence values at all
lower-triangular positions of those rows and the initial buffer everywhere
else. -/
theorem cholOuter_spec (dim : ℕ) (A : ℕ → ℝ) (mul : ℝ) :
    ∀ m, m ≤ dim → ∀ L0 : ℕ → ℝ,
      ((∀ i j, j ≤ i → i < m →
          cholOuter dim A mul m L0 (i + j * dim) = cholElemFlat dim A mul i j) ∧
       (∀ idx, (∀ i j, j ≤ i → i < m → idx ≠ i + j * dim) →
          cholOuter dim A mul m L0 idx = L0 idx)) := by
  intro m
  induction m with
  | zero =>
    intro _ L0
    exact ⟨fun i j _ hi => absurd hi (Nat.not_lt_zero i), fun idx _ => rfl⟩
  | succ m IH =>
    intro hm1 L0
    have hmdim : m < dim := hm1
    obtain ⟨IH1, IH2⟩ := IH (by omega) L0
    have hstep : cholOuter dim A mul (m + 1) L0 =
        cholInner dim A mul m m
          (cholWrite0 dim A mul m (cholOuter dim A mul m L0)) := rfl
    have hw0 : cholWrite0 dim A mul m (cholOuter dim A mul m L0) m =
        cholElemFlat dim A mul m 0 := by
      unfold cholWrite0
      rw [Function.update_same]
      by_cases hm0 : m = 0
      · rw [if_pos hm0]
        subst hm0
        rw [cholElemFlat_diag]
        simp
      · rw [if_neg hm0]
        rw [cholElemFlat_off dim A mul (by omega : 0 < m)]
        have h00 : cholOuter dim A mul m L0 0 = cholElemFlat dim A mul 0 0 := by
          have := IH1 0 0 le_rfl (by omega)
          simpa using this
        rw [h00]
        simp
    have hrows : ∀ i j, j ≤ i → i < m →
        cholWrite0 dim A mul m (cholOuter dim A mul m L0) (i + j * dim) =
          cholElemFlat dim A mul i j := by
      intro i j hj hi
      unfold cholWrite0
      rw [Function.update_noteq ?hne3]
      case hne3 =>
        intro hcon
        have hcon' : i + j * dim = m + 0 * dim := by simpa using hcon
        exact absurd (colIdx_inj (lt_trans hi hmdim) hmdim hcon').1 (by omega)
      exact IH1 i j hj hi
    obtain ⟨S1, S2, S3⟩ := cholInner_spec dim A mul m hmdim m le_rfl _ hrows hw0
    refine ⟨?_, ?_⟩
    · intro i j hj hi
      rw [hstep]
      rcases Nat.lt_or_ge i m with him | him
      · exact S1 i j hj him
      · have hi1 : i = m := by omega
        subst hi1
        exact S2 j hj
    · intro idx hidx
      rw [hstep]
      rw [S3 idx (fun j h1 h2 => hidx m j h2 (by omega))]
      unfold cholWrite0
      rw [Function.update_noteq ?hne4]
      case hne4 =>
        have := hidx m 0 (Nat.zero_le m) (by omega)
        simpa using this
      exact IH2 idx (fun i j hj hi => hidx i j hj (by omega))

/-- The loop implementation writes exactly the recurrence values at the
lower-triangular column-major positions. -/
theorem cholesky_decomp_spec (dim : ℕ) (L0 A : ℕ → ℝ) (mul : ℝ) {i j : ℕ}
    (hi : i < dim) (hj : j ≤ i) :
    matrix_cholesky_decomp_scale_f dim L0 A mul (i + j * dim) = cholElemFlat dim A mul i j :=
  (cholOuter_spec dim A mul dim le_rfl L0).1 i j hj hi

/-- The loop implementation never writes outside the lower-triangular
column-major positions. -/
theorem cholesky_decomp_frame (dim : ℕ) (L0 A : ℕ → ℝ) (mul : ℝ) {idx : ℕ}
    (h : ∀ i j, j ≤ i → i < dim → idx ≠ i + j * dim) :
    matrix_cholesky_decomp_scale_f dim L0 A mul idx = L0 idx :=
  (cholOuter_spec dim A mul dim le_rfl L0).2 idx h

theorem colMajor_apply (n : ℕ) (A : ℕ → ℕ → ℝ) {i : ℕ} (j : ℕ) (hi : i < n) :
    colMajor n A (i + j * n) = A i j := by
  unfold colMajor
  rw [Nat.add_mul_mod_self_right, Nat.mod_eq_of_lt hi,
    Nat.add_mul_div_right _ _ (by omega : 0 < n), Nat.div_eq_of_lt hi, Nat.zero_add]

theorem cholE_diag (n : ℕ) (A : ℕ → ℕ → ℝ) (k : ℝ) {i : ℕ} (hi : i < n) :
    cholE n A k i i = Real.sqrt (cholPivot n A k i) := by
  simp only [cholE, cholPivot]
  rw [cholElemFlat_diag, colMajor_apply n A i hi, fsqrt]
  ring_nf

theorem cholE_off (n : ℕ) (A : ℕ → ℕ → ℝ) (k : ℝ) {i j : ℕ} (hi : i < n) (hj : j < i) :
    cholE n A k i j =
      recip (cholE n A k j j) *
        (k * A i j - ∑ p in Finset.range j, cholE n A k i p * cholE n A k j p) := by
  simp only [cholE]
  rw [cholElemFlat_off n (colMajor n A) k hj, colMajor_apply n A j hi]
  ring_nf

/-- Partial inner products of rows of the Cholesky factor recover the scaled
matrix entries, provided the pivot of the shorter row is positive. -/
theorem cholE_partial (n : ℕ) (A : ℕ → ℕ → ℝ) (k : ℝ) {a b : ℕ}
    (ha : a < n) (hb : b ≤ a) (hpiv : 0 < cholPivot n A k b) :
    ∑ p in Finset.range (b + 1), cholE n A k a p * cholE n A k b p = k * A a b := by
  have hbn : b < n := by omega
  have hsq : cholE n A k b b = Real.sqrt (cholPivot n A k b) := cholE_diag n A k hbn
  rcases Nat.lt_or_ge b a with hba | hba
  · have hne : cholE n A k b b ≠ 0 := by
      rw [hsq]
      exact ne_of_gt (Real.sqrt_pos.mpr hpiv)
    rw [Finset.sum_range_succ, cholE_off n A k ha hba, recip]
    field_simp
  · have hab : b = a := by omega
    subst hab
    have h2 : cholE n A k b b * cholE n A k b b = cholPivot n A k b := by
      rw [hsq]
      exact Real.mul_self_sqrt (le_of_lt hpiv)
    rw [Finset.sum_range_succ, h2]
    unfold cholPivot
    have h3 : ∑ p in Finset.range b, cholE n A k b p * cholE n A k b p
        = ∑ p in Finset.range b, cholE n A k b p ^ 2 :=
      Finset.sum_congr rfl fun p _ => (pow_two _).symm
    rw [h3]
    ring

theorem backSolve_self (f : ℕ → ℕ → ℝ) (i : ℕ) : backSolve f i i = 1 := by
  rw [backSolve, if_pos rfl]

theorem backSolve_gt (f : ℕ → ℕ → ℝ) {i p : ℕ} (h : i < p) : backSolve f i p = 0 := by
  rw [backSolve, if_neg (by omega), dif_neg (by omega)]

theorem backSolve_lt (f : ℕ → ℕ → ℝ) {i p : ℕ} (h : p < i) :
    backSolve f i p = -(∑ q in Finset.Ioc p i, f q p * backSolve f i q) / f p p := by
  rw [backSolve, if_neg (by omega), dif_pos h,
    Finset.sum_attach (Finset.Ioc p i) (fun q => f q p * backSolve f i q)]

/-- Against the transposed factor, the back-substituted vector annihilates
every column `p < i`. -/
theorem backSolve_col (f : ℕ → ℕ → ℝ) {i p : ℕ} (hp : p < i) (hf : f p p ≠ 0) :
    ∑ q in Finset.Icc p i, f q p * backSolve f i q = 0 := by
  rw [← Finset.Ioc_insert_left (le_of_lt hp), Finset.sum_insert Finset.left_not_mem_Ioc,
    backSolve_lt f hp]
  field_simp
  ring

theorem sum_ite_le (g : ℕ → ℝ) {m N : ℕ} (h : m < N) :
    ∑ p in Finset.range N, (if p ≤ m then g p else 0) = ∑ p in Finset.range (m + 1), g p := by
  rw [← Finset.sum_subset (Finset.range_subset.mpr h)
      (fun x hx hnx => if_neg (by
        simp only [Finset.mem_range] at hx hnx
        omega))]
  exact Finset.sum_congr rfl fun p hp =>
    if_pos (by have := Finset.mem_range.mp hp; omega)

theorem sum_ite_ge (g : ℕ → ℝ) (p i : ℕ) :
    ∑ q in Finset.range (i + 1), (if p ≤ q then g q else 0) = ∑ q in Finset.Icc p i, g q := by
  have hsub : Finset.Icc p i ⊆ Finset.range (i + 1) := by
    intro q hq
    have := (Finset.mem_Icc.mp hq).2
    exact Finset.mem_range.mpr (by omega)
  have hzero : ∀ x ∈ Finset.range (i + 1), x ∉ Finset.Icc p i →
      (if p ≤ x then g x else 0) = 0 := by
    intro x hx hnx
    have hx' := Finset.mem_range.mp hx
    rw [Finset.mem_Icc] at hnx
    exact if_neg (by omega)
  rw [← Finset.sum_subset hsub hzero]
  exact Finset.sum_congr rfl fun q hq => if_pos (Finset.mem_Icc.mp hq).1

/-- For a symmetric positive-definite matrix scaled by a positive factor,
every pivot of the Cholesky recurrence is positive. -/
theorem cholPivot_pos (n : ℕ) (A : ℕ → ℕ → ℝ) (k : ℝ) (hk : 0 < k)
    (hsymm : ∀ i, i < n → ∀ j, j < n → A i j = A j i)
    (hpd : ∀ x : ℕ → ℝ, (∃ i, i < n ∧ x i ≠ 0) →
      0 < ∑ i in Finset.range n, ∑ j in Finset.range n, x i * A i j * x j) :
    ∀ i, i < n → 0 < cholPivot n A k i := by
  intro i
  induction i using Nat.strong_induction_on with
  | _ i IH =>
  intro hin
  have hIH : ∀ m, m < i → 0 < cholPivot n A k m :=
    fun m hm => IH m hm (by omega)
  have hEdiag_ne : ∀ p, p < i → cholE n A k p p ≠ 0 := by
    intro p hp
    rw [cholE_diag n A k (by omega : p < n)]
    exact ne_of_gt (Real.sqrt_pos.mpr (hIH p hp))
  have hz_self : backSolve (cholE n A k) i i = 1 := backSolve_self _ i
  have hz_gt : ∀ p, i < p → backSolve (cholE n A k) i p = 0 :=
    fun p hp => backSolve_gt _ hp
  have hc : ∀ p, p < i →
      ∑ q in Finset.range (i + 1),
        (if p ≤ q then cholE n A k q p else 0) * backSolve (cholE n A k) i q = 0 := by
    intro p hp
    have h1 : ∀ q, (if p ≤ q then cholE n A k q p else 0) * backSolve (cholE n A k) i q
        = (if p ≤ q then cholE n A k q p * backSolve (cholE n A k) i q else 0) := by
      intro q
      by_cases h : p ≤ q
      · rw [if_pos h, if_pos h]
      · rw [if_neg h, if_neg h, zero_mul]
    simp only [h1]
    rw [sum_ite_ge (fun q => cholE n A k q p * backSolve (cholE n A k) i q) p i]
    exact backSolve_col (cholE n A k) hp (hEdiag_ne p hp)
  have hCzero : ∑ p in Finset.range i,
      (∑ q in Finset.range (i + 1),
        (if p ≤ q then cholE n A k q p else 0) * backSolve (cholE n A k) i q) ^ 2 = 0 := by
    refine Finset.sum_eq_zero ?_
    intro p hp
    rw [hc p (Finset.mem_range.mp hp)]
    exact zero_pow two_ne_zero
  have hExpand : ∑ p in Finset.range i,
      (∑ q in Finset.range (i + 1),
        (if p ≤ q then cholE n A k q p else 0) * backSolve (cholE n A k) i q) ^ 2
      = ∑ q in Finset.range (i + 1), ∑ r in Finset.range (i + 1),
          backSolve (cholE n A k) i q * backSolve (cholE n A k) i r *
            (∑ p in Finset.range i,
              (if p ≤ q then cholE n A k q p else 0) * (if p ≤ r then cholE n A k r p else 0)) := by
    have h1 : ∀ p, (∑ q in Finset.range (i + 1),
        (if p ≤ q then cholE n A k q p else 0) * backSolve (cholE n A k) i q) ^ 2
        = ∑ q in Finset.range (i + 1), ∑ r in Finset.range (i + 1),
            ((if p ≤ q then cholE n A k q p else 0) * backSolve (cholE n A k) i q) *
              ((if p ≤ r then cholE n A k r p else 0) * backSolve (cholE n A k) i r) := by
      intro p
      rw [pow_two, Finset.sum_mul_sum]
    simp only [h1]
    rw [Finset.sum_comm]
    refine Finset.sum_congr rfl ?_
    intro q _
    rw [Finset.sum_comm]
    refine Finset.sum_congr rfl ?_
    intro r _
    rw [Finset.mul_sum]
    refine Finset.sum_congr rfl ?_
    intro p _
    ring
  have hWoff : ∀ q r : ℕ, q ≤ i → r ≤ i → ¬(q = i ∧ r = i) →
      (∑ p in Finset.range i,
        (if p ≤ q then cholE n A k q p else 0) * (if p ≤ r then cholE n A k r p else 0))
        = k * A q r := by
    intro q r hqi hri hne
    have hqn : q < n := by omega
    have hrn : r < n := by omega
    rcases le_or_lt r q with hrq | hqr
    · have hri' : r < i := by
        rcases Nat.lt_or_ge r i with h | h
        · exact h
        · exact absurd ⟨by omega, by omega⟩ hne
      have h1 : ∀ p, (if p ≤ q then cholE n A k q p else 0) * (if p ≤ r then cholE n A k r p else 0)
          = (if p ≤ r then cholE n A k q p * cholE n A k r p else 0) := by
        intro p
        by_cases h : p ≤ r
        · rw [if_pos h, if_pos (by omega : p ≤ q), if_pos h]
        · simp only [if_neg h, mul_zero]
      simp only [h1]
      rw [sum_ite_le (fun p => cholE n A k q p * cholE n A k r p) hri']
      exact cholE_partial n A k hqn hrq (hIH r hri')
    · have hqi' : q < i := by omega
      have h1 : ∀ p, (if p ≤ q then cholE n A k q p else 0) * (if p ≤ r then cholE n A k r p else 0)
          = (if p ≤ q then cholE n A k q p * cholE n A k r p else 0) := by
        intro p
        by_cases h : p ≤ q
        · rw [if_pos h, if_pos (by omega : p ≤ r), if_pos h]
        · simp only [if_neg h, zero_mul]
      simp only [h1]
      rw [sum_ite_le (fun p => cholE n A k q p * cholE n A k r p) hqi']
      have h2 : ∑ p in Finset.range (q + 1), cholE n A k q p * cholE n A k r p
          = ∑ p in Finset.range (q + 1), cholE n A k r p * cholE n A k q p :=
        Finset.sum_congr rfl fun p _ => mul_comm _ _
      rw [h2, cholE_partial n A k hrn (by omega) (hIH q hqi'), hsymm r hrn q hqn]
  have hWii : (∑ p in Finset.range i,
      (if p ≤ i then cholE n A k i p else 0) * (if p ≤ i then cholE n A k i p else 0))
      = k * A i i - cholPivot n A k i := by
    have h1 : ∀ p ∈ Finset.range i,
        (if p ≤ i then cholE n A k i p else 0) * (if p ≤ i then cholE n A k i p else 0)
        = cholE n A k i p ^ 2 := by
      intro p hp
      have hpi : p ≤ i := by have := Finset.mem_range.mp hp; omega
      rw [if_pos hpi, pow_two]
    rw [Finset.sum_congr rfl h1]
    unfold cholPivot
    ring
  have hWall : ∀ q ∈ Finset.range (i + 1), ∀ r ∈ Finset.range (i + 1),
      (∑ p in Finset.range i,
        (if p ≤ q then cholE n A k q p else 0) * (if p ≤ r then cholE n A k r p else 0))
        = k * A q r - (if q = i ∧ r = i then cholPivot n A k i else 0) := by
    intro q hq r hr
    have hqi : q ≤ i := by have := Finset.mem_range.mp hq; omega
    have hri : r ≤ i := by have := Finset.mem_range.mp hr; omega
    by_cases hqr : q = i ∧ r = i
    · obtain ⟨hq1, hr1⟩ := hqr
      subst hq1
      subst hr1
      rw [if_pos ⟨rfl, rfl⟩, hWii]
    · rw [if_neg hqr, sub_zero]
      exact hWoff q r hqi hri hqr
  have hstep2 : ∑ q in Finset.range (i + 1), ∑ r in Finset.range (i + 1),
      backSolve (cholE n A k) i q * backSolve (cholE n A k) i r *
        (∑ p in Finset.range i,
          (if p ≤ q then cholE n A k q p else 0) * (if p ≤ r then cholE n A k r p else 0))
      = ∑ q in Finset.range (i + 1), ∑ r in Finset.range (i + 1),
          backSolve (cholE n A k) i q * backSolve (cholE n A k) i r *
            (k * A q r - (if q = i ∧ r = i then cholPivot n A k i else 0)) :=
    Finset.sum_congr rfl fun q hq => Finset.sum_congr rfl fun r hr => by
      rw [hWall q hq r hr]
  have hMain : ∑ q in Finset.range (i + 1), ∑ r in Finset.range (i + 1),
      backSolve (cholE n A k) i q * backSolve (cholE n A k) i r *
        (k * A q r - (if q = i ∧ r = i then cholPivot n A k i else 0))
      = (∑ q in Finset.range (i + 1), ∑ r in Finset.range (i + 1),
          backSolve (cholE n A k) i q * backSolve (cholE n A k) i r * (k * A q r))
        - cholPivot n A k i := by
    have h1 : ∀ q r : ℕ, backSolve (cholE n A k) i q * backSolve (cholE n A k) i r *
        (k * A q r - (if q = i ∧ r = i then cholPivot n A k i else 0))
        = backSolve (cholE n A k) i q * backSolve (cholE n A k) i r * (k * A q r)
          - (if q = i ∧ r = i then
              backSolve (cholE n A k) i q * backSolve (cholE n A k) i r * cholPivot n A k i
            else 0) := by
      intro q r
      by_cases h : q = i ∧ r = i
      · rw [if_pos h, if_pos h]; ring
      · rw [if_neg h, if_neg h]; ring
    simp only [h1]
    simp only [Finset.sum_sub_distrib]
    have h2 : ∑ q in Finset.range (i + 1), ∑ r in Finset.range (i + 1),
        (if q = i ∧ r = i then
          backSolve (cholE n A k) i q * backSolve (cholE n A k) i r * cholPivot n A k i
        else 0) = cholPivot n A k i := by
      rw [Finset.sum_eq_single i]
      · rw [Finset.sum_eq_single i]
        · rw [if_pos ⟨rfl, rfl⟩, hz_self]
          ring
        · intro r _ hr
          exact if_neg (by tauto)
        · intro h
          exact absurd (Finset.self_mem_range_succ i) h
      · intro q _ hq
        refine Finset.sum_eq_zero fun r _ => if_neg (by tauto)
      · intro h
        exact absurd (Finset.self_mem_range_succ i) h
    rw [h2]
  have hQext : ∑ q in Finset.range (i + 1), ∑ r in Finset.range (i + 1),
      backSolve (cholE n A k) i q * backSolve (cholE n A k) i r * (k * A q r)
      = k * ∑ a in Finset.range n, ∑ b in Finset.range n,
          backSolve (cholE n A k) i a * A a b * backSolve (cholE n A k) i b := by
    have hsub : Finset.range (i + 1) ⊆ Finset.range n :=
      Finset.range_subset.mpr (by omega)
    have houter : ∀ a ∈ Finset.range n, a ∉ Finset.range (i + 1) →
        (∑ r in Finset.range (i + 1),
          backSolve (cholE n A k) i a * backSolve (cholE n A k) i r * (k * A a r)) = 0 := by
      intro a _ hna
      have hza : backSolve (cholE n A k) i a = 0 := by
        refine hz_gt a ?_
        simp only [Finset.mem_range] at hna
        omega
      refine Finset.sum_eq_zero fun r _ => by rw [hza]; ring
    rw [Finset.sum_subset hsub houter]
    have hinner : ∀ a, ∀ x ∈ Finset.range n, x ∉ Finset.range (i + 1) →
        backSolve (cholE n A k) i a * backSolve (cholE n A k) i x * (k * A a x) = 0 := by
      intro a x _ hnx
      have hzx : backSolve (cholE n A k) i x = 0 := by
        refine hz_gt x ?_
        simp only [Finset.mem_range] at hnx
        omega
      rw [hzx]; ring
    rw [Finset.mul_sum]
    refine Finset.sum_congr rfl ?_
    intro a _
    rw [Finset.sum_subset hsub (hinner a), Finset.mul_sum]
    refine Finset.sum_congr rfl ?_
    intro b _
    ring
  have hznz : ∃ a, a < n ∧ backSolve (cholE n A k) i a ≠ 0 := by
    refine ⟨i, hin, ?_⟩
    rw [hz_self]
    exact one_ne_zero
  have hq0 : (0:ℝ) < ∑ a in Finset.range n, ∑ b in Finset.range n,
      backSolve (cholE n A k) i a * A a b * backSolve (cholE n A k) i b := hpd _ hznz
  have hkq : (0:ℝ) < k * ∑ a in Finset.range n, ∑ b in Finset.range n,
      backSolve (cholE n A k) i a * A a b * backSolve (cholE n A k) i b := mul_pos hk hq0
  have e1 := hCzero
  rw [hExpand, hstep2, hMain, hQext] at e1
  linarith

/-- C1: for every symmetric positive-definite `n × n` matrix `A` and scale
`k > 0`, `matrix_cholesky_decomp_scale_f(n, L, A, k)` fills the
lower-triangular column-major positions of `L` so that, over real arithmetic,
`L[i,i] = sqrt(k*A[i,i] - Σ_(p<i) L[i,p]^2)` and, for `j < i`,
`L[i,j] = (k*A[i,j] - Σ_(p<j) L[i,p]*L[j,p]) / L[j,j]`; equivalently the
lower-triangular matrix `L` satisfies `L * Lᵀ = k * A`. -/
theorem C1_cholesky_decomp_correct (n : ℕ) (A : ℕ → ℕ → ℝ) (k : ℝ) (L0 : ℕ → ℝ)
    (hk : 0 < k) (hsymm : ∀ i, i < n → ∀ j, j < n → A i j = A j i)
    (hpd : ∀ x : ℕ → ℝ, (∃ i, i < n ∧ x i ≠ 0) →
      0 < ∑ i in Finset.range n, ∑ j in Finset.range n, x i * A i j * x j) :
    (∀ i, i < n → choleskyOutput n A k L0 (i + i * n) =
        Real.sqrt (k * A i i -
          ∑ p in Finset.range i, choleskyOutput n A k L0 (i + p * n) ^ 2)) ∧
    (∀ i, i < n → ∀ j, j < i → choleskyOutput n A k L0 (i + j * n) =
        (k * A i j - ∑ p in Finset.range j,
            choleskyOutput n A k L0 (i + p * n) * choleskyOutput n A k L0 (j + p * n))
          / choleskyOutput n A k L0 (j + j * n)) ∧
    (∀ i, i < n → ∀ j, j < n →
        ∑ p in Finset.range n,
          (if p ≤ i then choleskyOutput n A k L0 (i + p * n) else 0) *
          (if p ≤ j then choleskyOutput n A k L0 (j + p * n) else 0) = k * A i j) := by
  have hout : ∀ a, a < n → ∀ b, b ≤ a →
      choleskyOutput n A k L0 (a + b * n) = cholE n A k a b := by
    intro a ha b hb
    exact cholesky_decomp_spec n L0 (colMajor n A) k ha hb
  refine ⟨?_, ?_, ?_⟩
  · intro i hi
    have h1 : ∑ p in Finset.range i, choleskyOutput n A k L0 (i + p * n) ^ 2
        = ∑ p in Finset.range i, cholE n A k i p ^ 2 := by
      refine Finset.sum_congr rfl fun p hp => ?_
      rw [hout i hi p (by have := Finset.mem_range.mp hp; omega)]
    rw [hout i hi i le_rfl, h1, cholE_diag n A k hi]
    unfold cholPivot
    rfl
  · intro i hi j hji
    have h1 : ∑ p in Finset.range j,
        choleskyOutput n A k L0 (i + p * n) * choleskyOutput n A k L0 (j + p * n)
        = ∑ p in Finset.range j, cholE n A k i p * cholE n A k j p := by
      refine Finset.sum_congr rfl fun p hp => ?_
      have hp' := Finset.mem_range.mp hp
      rw [hout i hi p (by omega), hout j (by omega) p (by omega)]
    rw [hout i hi j (le_of_lt hji), h1, hout j (by omega) j le_rfl,
      cholE_off n A k hi hji, recip, one_div_mul_eq_div]
  · intro i hi j hj
    rcases le_or_lt j i with hji | hij
    · have hterm : ∀ p ∈ Finset.range n,
          (if p ≤ i then choleskyOutput n A k L0 (i + p * n) else 0) *
          (if p ≤ j then choleskyOutput n A k L0 (j + p * n) else 0)
          = (if p ≤ j then cholE n A k i p * cholE n A k j p else 0) := by
        intro p _
        by_cases h : p ≤ j
        · rw [if_pos h, if_pos (by omega : p ≤ i), if_pos h,
            hout i hi p (by omega), hout j (by omega) p h]
        · simp only [if_neg h, mul_zero]
      rw [Finset.sum_congr rfl hterm,
        sum_ite_le (fun p => cholE n A k i p * cholE n A k j p) hj]
      exact cholE_partial n A k hi hji (cholPivot_pos n A k hk hsymm hpd j hj)
    · have hterm : ∀ p ∈ Finset.range n,
          (if p ≤ i then choleskyOutput n A k L0 (i + p * n) else 0) *
          (if p ≤ j then choleskyOutput n A k L0 (j + p * n) else 0)
          = (if p ≤ i then cholE n A k i p * cholE n A k j p else 0) := by
        intro p _
        by_cases h : p ≤ i
        · rw [if_pos h, if_pos (by omega : p ≤ j), if_pos h,
            hout i hi p h, hout j hj p (by omega)]
        · simp only [if_neg h, zero_mul]
      rw [Finset.sum_congr rfl hterm,
        sum_ite_le (fun p => cholE n A k i p * cholE n A k j p) hi]
      have h2 : ∑ p in Finset.range (i + 1), cholE n A k i p * cholE n A k j p
          = ∑ p in Finset.range (i + 1), cholE n A k j p * cholE n A k i p :=
        Finset.sum_congr rfl fun p _ => mul_comm _ _
      rw [h2, cholE_partial n A k hj (le_of_lt hij) (cholPivot_pos n A k hk hsymm hpd i hi),
        hsymm j hj i hi]

/-- Witness for C1: the hypotheses are satisfiable and the theorem applies at
the concrete 1 × 1 positive-definite matrix with entry 1 and scale 1. -/
theorem C1_cholesky_decomp_correct_witness :
    (0:ℝ) < 1 ∧
    choleskyOutput 1 (fun _ _ => 1) 1 (fun _ => 0) (0 + 0 * 1) =
      Real.sqrt (1 * (1:ℝ) -
        ∑ p in Finset.range 0, choleskyOutput 1 (fun _ _ => 1) 1 (fun _ => 0) (0 + p * 1) ^ 2) := by
  constructor
  · norm_num
  · refine (C1_cholesky_decomp_correct 1 (fun _ _ => 1) 1 (fun _ => 0) (by norm_num)
      (fun _ _ _ _ => rfl) ?_).1 0 (by norm_num)
    intro x hx
    obtain ⟨i, hi, hxi⟩ := hx
    interval_cases i
    simp only [Finset.sum_range_one]
    have h1 : x 0 * x 0 > 0 := mul_self_pos.mpr hxi
    nlinarith

theorem cholT00 : cholElemFlat 4 cholTestA 1 0 0 = Real.sqrt 18 := by
  rw [cholElemFlat_diag]
  simp only [fsqrt, Finset.sum_range_zero]
  norm_num [cholTestA]

theorem cholT10 : cholElemFlat 4 cholTestA 1 1 0 = 22 / Real.sqrt 18 := by
  rw [cholElemFlat_off 4 cholTestA 1 (by norm_num : (0:ℕ) < 1), cholT00]
  simp only [recip, Finset.sum_range_zero]
  norm_num [cholTestA]
  ring

theorem cholT20 : cholElemFlat 4 cholTestA 1 2 0 = 54 / Real.sqrt 18 := by
  rw [cholElemFlat_off 4 cholTestA 1 (by norm_num : (0:ℕ) < 2), cholT00]
  simp only [recip, Finset.sum_range_zero]
  norm_num [cholTestA]
  ring

theorem cholT30 : cholElemFlat 4 cholTestA 1 3 0 = 42 / Real.sqrt 18 := by
  rw [cholElemFlat_off 4 cholTestA 1 (by norm_num : (0:ℕ) < 3), cholT00]
  simp only [recip, Finset.sum_range_zero]
  norm_num [cholTestA]
  ring

theorem cholT11 : cholElemFlat 4 cholTestA 1 1 1 = Real.sqrt (388/9) := by
  rw [cholElemFlat_diag]
  simp only [fsqrt, Finset.sum_range_one, cholT10]
  rw [div_pow, Real.sq_sqrt (by norm_num : (0:ℝ) ≤ 18)]
  norm_num [cholTestA]

theorem cholT21 : cholElemFlat 4 cholTestA 1 2 1 = 20 / Real.sqrt (388/9) := by
  rw [cholElemFlat_off 4 cholTestA 1 (by norm_num : (1:ℕ) < 2)]
  simp only [recip, Finset.sum_range_one, cholT20, cholT10, cholT11]
  rw [div_mul_div_comm, Real.mul_self_sqrt (by norm_num : (0:ℝ) ≤ 18),
    one_div_mul_eq_div]
  congr 1
  norm_num [cholTestA]

theorem cholT31 : cholElemFlat 4 cholTestA 1 3 1 = (32/3) / Real.sqrt (388/9) := by
  rw [cholElemFlat_off 4 cholTestA 1 (by norm_num : (1:ℕ) < 3)]
  simp only [recip, Finset.sum_range_one, cholT30, cholT10, cholT11]
  rw [div_mul_div_comm, Real.mul_self_sqrt (by norm_num : (0:ℝ) ≤ 18),
    one_div_mul_eq_div]
  congr 1
  norm_num [cholTestA]

theorem cholT22 : cholElemFlat 4 cholTestA 1 2 2 = Real.sqrt (264/97) := by
  rw [cholElemFlat_diag]
  simp only [fsqrt, Finset.sum_range_succ, Finset.sum_range_zero, cholT20, cholT21]
  rw [div_pow, div_pow, Real.sq_sqrt (by norm_num : (0:ℝ) ≤ 18),
    Real.sq_sqrt (by norm_num : (0:ℝ) ≤ 388/9)]
  norm_num [cholTestA]

theorem cholT32 : cholElemFlat 4 cholTestA 1 3 2 = (296/97) / Real.sqrt (264/97) := by
  rw [cholElemFlat_off 4 cholTestA 1 (by norm_num : (2:ℕ) < 3)]
  simp only [recip, Finset.sum_range_succ, Finset.sum_range_zero,
    cholT30, cholT20, cholT31, cholT21, cholT22]
  rw [div_mul_div_comm, div_mul_div_comm, Real.mul_self_sqrt (by norm_num : (0:ℝ) ≤ 18),
    Real.mul_self_sqrt (by norm_num : (0:ℝ) ≤ 388/9), one_div_mul_eq_div]
  congr 1
  norm_num [cholTestA]

theorem cholT33 : cholElemFlat 4 cholTestA 1 3 3 = Real.sqrt (64/33) := by
  rw [cholElemFlat_diag]
  simp only [fsqrt, Finset.sum_range_succ, Finset.sum_range_zero, cholT30, cholT31, cholT32]
  simp only [div_pow]
  rw [Real.sq_sqrt (by norm_num : (0:ℝ) ≤ 18),
    Real.sq_sqrt (by norm_num : (0:ℝ) ≤ 388/9), Real.sq_sqrt (by norm_num : (0:ℝ) ≤ 264/97)]
  congr 1
  norm_num [cholTestA]

theorem abs_sqrt_sub_le {r c eps : ℝ} (heps : 0 ≤ eps) (hc : 0 ≤ c - eps)
    (h1 : (c - eps) ^ 2 ≤ r) (h2 : r ≤ (c + eps) ^ 2) : |Real.sqrt r - c| ≤ eps := by
  have hl : c - eps ≤ Real.sqrt r := by
    have := Real.sqrt_le_sqrt h1
    rwa [Real.sqrt_sq hc] at this
  have hu : Real.sqrt r ≤ c + eps := by
    have := Real.sqrt_le_sqrt h2
    rwa [Real.sqrt_sq (by linarith : (0:ℝ) ≤ c + eps)] at this
  rw [abs_le]
  constructor <;> linarith

theorem abs_div_sqrt_sub_le {q r c eps : ℝ} (hq : 0 ≤ q) (hr : 0 < r) (heps : 0 ≤ eps)
    (hc : 0 ≤ c - eps) (h1 : (c - eps) ^ 2 * r ≤ q ^ 2) (h2 : q ^ 2 ≤ (c + eps) ^ 2 * r) :
    |q / Real.sqrt r - c| ≤ eps := by
  have hqr : q / Real.sqrt r = Real.sqrt (q ^ 2 / r) := by
    rw [Real.sqrt_div (sq_nonneg q) r, Real.sqrt_sq hq]
  rw [hqr]
  refine abs_sqrt_sub_le heps hc ?_ ?_
  · rw [le_div_iff₀ hr]
    exact h1
  · rw [div_le_iff₀ hr]
    exact h2

/-- C6: for the reference 4 × 4 positive-definite matrix and scale 1.0, the
decomposition produces, in column-major ordering, lower-triangular entries each
within 1e-5 of the expected values of the reference test. -/
theorem C6_cholesky_reference_test :
    |cholTestOut 0 - 4.24264| ≤ 1e-5 ∧ |cholTestOut 1 - 5.18545| ≤ 1e-5 ∧
    |cholTestOut 2 - 12.72792| ≤ 1e-5 ∧ |cholTestOut 3 - 9.8994951| ≤ 1e-5 ∧
    |cholTestOut 5 - 6.5659051| ≤ 1e-5 ∧ |cholTestOut 6 - 3.0460384| ≤ 1e-5 ∧
    |cholTestOut 7 - 1.6245539| ≤ 1e-5 ∧ |cholTestOut 10 - 1.6497422| ≤ 1e-5 ∧
    |cholTestOut 11 - 1.8497111| ≤ 1e-5 ∧ |cholTestOut 15 - 1.3926213| ≤ 1e-5 := by
  have e00 : cholTestOut (0 + 0 * 4) = cholElemFlat 4 cholTestA 1 0 0 :=
    cholesky_decomp_spec 4 cholTestA cholTestA 1 (by norm_num) (by norm_num)
  have e10 : cholTestOut (1 + 0 * 4) = cholElemFlat 4 cholTestA 1 1 0 :=
    cholesky_decomp_spec 4 cholTestA cholTestA 1 (by norm_num) (by norm_num)
  have e20 : cholTestOut (2 + 0 * 4) = cholElemFlat 4 cholTestA 1 2 0 :=
    cholesky_decomp_spec 4 cholTestA cholTestA 1 (by norm_num) (by norm_num)
  have e30 : cholTestOut (3 + 0 * 4) = cholElemFlat 4 cholTestA 1 3 0 :=
    cholesky_decomp_spec 4 cholTestA cholTestA 1 (by norm_num) (by norm_num)
  have e11 : cholTestOut (1 + 1 * 4) = cholElemFlat 4 cholTestA 1 1 1 :=
    cholesky_decomp_spec 4 cholTestA cholTestA 1 (by norm_num) (by norm_num)
  have e21 : cholTestOut (2 + 1 * 4) = cholElemFlat 4 cholTestA 1 2 1 :=
    cholesky_decomp_spec 4 cholTestA cholTestA 1 (by norm_num) (by norm_num)
  have e31 : cholTestOut (3 + 1 * 4) = cholElemFlat 4 cholTestA 1 3 1 :=
    cholesky_decomp_spec 4 cholTestA cholTestA 1 (by norm_num) (by norm_num)
  have e22 : cholTestOut (2 + 2 * 4) = cholElemFlat 4 cholTestA 1 2 2 :=
    cholesky_decomp_spec 4 cholTestA cholTestA 1 (by norm_num) (by norm_num)
  have e32 : cholTestOut (3 + 2 * 4) = cholElemFlat 4 cholTestA 1 3 2 :=
    cholesky_decomp_spec 4 cholTestA cholTestA 1 (by norm_num) (by norm_num)
  have e33 : cholTestOut (3 + 3 * 4) = cholElemFlat 4 cholTestA 1 3 3 :=
    cholesky_decomp_spec 4 cholTestA cholTestA 1 (by norm_num) (by norm_num)
  norm_num at e00 e10 e20 e30 e11 e21 e31 e22 e32 e33
  rw [cholT00] at e00
  rw [cholT10] at e10
  rw [cholT20] at e20
  rw [cholT30] at e30
  rw [cholT11] at e11
  rw [cholT21] at e21
  rw [cholT31] at e31
  rw [cholT22] at e22
  rw [cholT32] at e32
  rw [cholT33] at e33
  refine ⟨?_, ?_, ?_, ?_, ?_, ?_, ?_, ?_, ?_, ?_⟩
  · rw [e00]
    exact abs_sqrt_sub_le (by norm_num) (by norm_num) (by norm_num) (by norm_num)
  · rw [e10]
    exact abs_div_sqrt_sub_le (by norm_num) (by norm_num) (by norm_num) (by norm_num)
      (by norm_num) (by norm_num)
  · rw [e20]
    exact abs_div_sqrt_sub_le (by norm_num) (by norm_num) (by norm_num) (by norm_num)
      (by norm_num) (by norm_num)
  · rw [e30]
    exact abs_div_sqrt_sub_le (by norm_num) (by norm_num) (by norm_num) (by norm_num)
      (by norm_num) (by norm_num)
  · rw [e11]
    exact abs_sqrt_sub_le (by norm_num) (by norm_num) (by norm_num) (by norm_num)
  · rw [e21]
    exact abs_div_sqrt_sub_le (by norm_num) (by norm_num) (by norm_num) (by norm_num)
      (by norm_num) (by norm_num)
  · rw [e31]
    exact abs_div_sqrt_sub_le (by norm_num) (by norm_num) (by norm_num) (by norm_num)
      (by norm_num) (by norm_num)
  · rw [e22]
    exact abs_sqrt_sub_le (by norm_num) (by norm_num) (by norm_num) (by norm_num)
  · rw [e32]
    exact abs_div_sqrt_sub_le (by norm_num) (by norm_num) (by norm_num) (by norm_num)
      (by norm_num) (by norm_num)
  · rw [e33]
    exact abs_sqrt_sub_le (by norm_num) (by norm_num) (by norm_num) (by norm_num)

/-- In the rescaling branch, `TRICAL_norm_set` multiplies all state entries by
the norm ratio and all covariance entries by the squared ratio and stores the
new norm, leaving noise and counter alone. -/
theorem norm_set_state_far {inst : TRICAL_instance_t} {norm : ℝ}
    (hfar : ¬ |norm - inst.field_norm| < FLT_EPSILON) :
    (∀ i, i < TRICAL_STATE_DIM →
      (TRICAL_norm_set inst norm).state i = inst.state i * (norm / inst.field_norm)) ∧
    (∀ i, i < TRICAL_STATE_DIM * TRICAL_STATE_DIM →
      (TRICAL_norm_set inst norm).state_covariance i =
        inst.state_covariance i * ((norm * norm) / (inst.field_norm * inst.field_norm))) ∧
    (TRICAL_norm_set inst norm).field_norm = norm ∧
    (TRICAL_norm_set inst norm).measurement_noise = inst.measurement_noise ∧
    (TRICAL_norm_set inst norm).measurement_count = inst.measurement_count := by
  unfold TRICAL_norm_set
  rw [if_neg hfar]
  refine ⟨?_, ?_, rfl, rfl, rfl⟩
  · intro i hi
    dsimp only
    rw [if_pos hi]
  · intro i hi
    dsimp only
    rw [if_pos hi]

/-- In the near branch, `TRICAL_norm_set` returns the instance unchanged. -/
theorem norm_set_noop {inst : TRICAL_instance_t} {norm : ℝ}
    (hnear : |norm - inst.field_norm| < FLT_EPSILON) :
    TRICAL_norm_set inst norm = inst := by
  unfold TRICAL_norm_set
  rw [if_pos hnear]

/-- C3: after `TRICAL_init`, on a fresh or an already-initialized instance,
all 9 entries of the error state are zero, `field_norm` is 1.0,
`measurement_noise` is 1e-6, the 9 × 9 covariance has every diagonal entry
equal to 1e-2 and every off-diagonal entry zero, and the measurement counter
is zero. -/
theorem C3_init_defaults (inst : TRICAL_instance_t) :
    (∀ i, i < 9 → (TRICAL_init inst).state i = 0) ∧
    (TRICAL_init inst).field_norm = 1.0 ∧
    (TRICAL_init inst).measurement_noise = 1e-6 ∧
    (∀ r, r < 9 → ∀ c, c < 9 →
      (TRICAL_init inst).state_covariance (r * 9 + c) = if r = c then 1e-2 else 0) ∧
    (TRICAL_init inst).measurement_count = 0 := by
  refine ⟨fun i _ => rfl, rfl, rfl, ?_, rfl⟩
  intro r hr c hc
  simp only [TRICAL_init, TRICAL_STATE_DIM]
  interval_cases r <;> interval_cases c <;> norm_num

/-- Witness for C3 at a concrete instance and index. -/
theorem C3_init_defaults_witness :
    (0:ℕ) < 9 ∧ (TRICAL_init normSetEx).state 0 = 0 :=
  ⟨by norm_num, (C3_init_defaults normSetEx).1 0 (by norm_num)⟩

/-- Counterexample to C2 as stated: with unit state and field norm 1, the call
`TRICAL_norm_set(instance, 2)` satisfies the claimed hypotheses yet scale
entry 3 of the error state is rescaled from 1 to 2 — the code multiplies all
nine state entries by the ratio, not only the bias entries. -/
theorem C2_norm_set_scale_counterexample :
    0 < normSetEx.field_norm ∧ (0:ℝ) < 2 ∧
    FLT_EPSILON ≤ |2 - normSetEx.field_norm| ∧
    (TRICAL_norm_set normSetEx 2).state 3 = 2 ∧ normSetEx.state 3 = 1 := by
  have hguard : ¬ |(2:ℝ) - normSetEx.field_norm| < FLT_EPSILON := by
    norm_num [normSetEx, FLT_EPSILON]
  refine ⟨by norm_num [normSetEx], by norm_num,
    by norm_num [normSetEx, FLT_EPSILON], ?_, rfl⟩
  obtain ⟨hs, _, _, _, _⟩ := norm_set_state_far hguard
  rw [hs 3 (by norm_num [TRICAL_STATE_DIM])]
  norm_num [normSetEx]

/-- C2 (amended): for an instance with field norm `f0 > 0` and `n > 0` with
`|n - f0| ≥ FLT_EPSILON`, `TRICAL_norm_set(instance, n)` multiplies all nine
entries of the error state — bias entries 0–2 and scale entries 3–8 alike —
by the ratio `n/f0`, multiplies every entry of the state covariance by the
squared ratio `(n/f0)^2`, and sets `field_norm` to `n`. -/
theorem C2_norm_set_rescale (inst : TRICAL_instance_t) (norm : ℝ)
    (h0 : 0 < inst.field_norm) (hn : 0 < norm)
    (hfar : FLT_EPSILON ≤ |norm - inst.field_norm|) :
    (∀ i, i < 9 →
      (TRICAL_norm_set inst norm).state i = inst.state i * (norm / inst.field_norm)) ∧
    (∀ i, i < 81 → (TRICAL_norm_set inst norm).state_covariance i =
        inst.state_covariance i * (norm / inst.field_norm) ^ 2) ∧
    (TRICAL_norm_set inst norm).field_norm = norm := by
  have hguard : ¬ |norm - inst.field_norm| < FLT_EPSILON := not_lt.mpr hfar
  obtain ⟨hs, hcov, hf, _, _⟩ := norm_set_state_far hguard
  refine ⟨?_, ?_, hf⟩
  · intro i hi
    exact hs i (by simpa [TRICAL_STATE_DIM] using hi)
  · intro i hi
    rw [hcov i (by simpa [TRICAL_STATE_DIM] using hi)]
    ring

/-- Witness for C2 (amended) at a concrete instance. -/
theorem C2_norm_set_rescale_witness :
    (0:ℝ) < 2 ∧ (TRICAL_norm_set normSetEx 2).field_norm = 2 :=
  ⟨by norm_num, (C2_norm_set_rescale normSetEx 2 (by norm_num [normSetEx])
    (by norm_num) (by norm_num [normSetEx, FLT_EPSILON])).2.2⟩

/-- C7: when the new norm is within `FLT_EPSILON` of the current one (in
particular when they are equal), `TRICAL_norm_set` is a no-op: the whole
instance — error state, covariance, field norm, noise and counter — is
unchanged. -/
theorem C7_norm_set_noop (inst : TRICAL_instance_t) (norm : ℝ) (hn : 0 < norm)
    (hnear : |norm - inst.field_norm| < FLT_EPSILON) :
    TRICAL_norm_set inst norm = inst :=
  norm_set_noop hnear

/-- Witness for C7: setting the norm to its current value 1. -/
theorem C7_norm_set_noop_witness :
    (0:ℝ) < 1 ∧ TRICAL_norm_set normSetEx 1 = normSetEx :=
  ⟨by norm_num, C7_norm_set_noop normSetEx 1 (by norm_num)
    (by norm_num [normSetEx, FLT_EPSILON])⟩

/-- C8: rescaling to any `n1 > 0` and back to the original norm returns the
bias entries of the error state to their original values, exactly over real
arithmetic. -/
theorem C8_norm_set_roundtrip (inst : TRICAL_instance_t) (n1 : ℝ)
    (h0 : 0 < inst.field_norm) (h1 : 0 < n1) :
    ∀ i, i < 3 →
      (TRICAL_norm_set (TRICAL_norm_set inst n1) inst.field_norm).state i =
        inst.state i := by
  intro i hi
  have hf0 : inst.field_norm ≠ 0 := ne_of_gt h0
  have hn0 : n1 ≠ 0 := ne_of_gt h1
  by_cases hnear : |n1 - inst.field_norm| < FLT_EPSILON
  · rw [norm_set_noop hnear, norm_set_noop (by
      rw [sub_self, abs_zero]
      norm_num [FLT_EPSILON])]
  · obtain ⟨hs1, _, hf1, _, _⟩ := norm_set_state_far hnear
    have hguard2 : ¬ |inst.field_norm - (TRICAL_norm_set inst n1).field_norm| < FLT_EPSILON := by
      rw [hf1, abs_sub_comm]
      exact hnear
    obtain ⟨hs2, _, _, _, _⟩ := norm_set_state_far hguard2
    rw [hs2 i (by simp only [TRICAL_STATE_DIM]; omega),
      hs1 i (by simp only [TRICAL_STATE_DIM]; omega), hf1]
    field_simp

/-- Witness for C8 at a concrete instance, `n1 = 2`. -/
theorem C8_norm_set_roundtrip_witness :
    (0:ℝ) < 2 ∧
    (TRICAL_norm_set (TRICAL_norm_set normSetEx 2) normSetEx.field_norm).state 0 =
      normSetEx.state 0 :=
  ⟨by norm_num, C8_norm_set_roundtrip normSetEx 2 (by norm_num [normSetEx])
    (by norm_num) 0 (by norm_num)⟩

/-- C5: `TRICAL_estimate_get` returns the bias from state entries 0–2 and the
symmetric 3 × 3 scale matrix expanded as
`scale[0..8] = state[3],state[4],state[5],state[4],state[6],state[7],state[5],state[7],state[8]`;
`TRICAL_estimate_get_ext` additionally returns
`bias_variance[i] = covariance[i*9+i]` and the scale variances built from the
covariance diagonal entries 3..8 mirrored by the same symmetric convention. -/
theorem C5_estimate_get_spec (inst : TRICAL_instance_t) (b0 s0 bv0 sv0 : ℕ → ℝ) :
    (∀ i, i < 3 → (TRICAL_estimate_get inst b0 s0).1 i = inst.state i) ∧
    ((TRICAL_estimate_get inst b0 s0).2.1 0 = inst.state 3 ∧
     (TRICAL_estimate_get inst b0 s0).2.1 1 = inst.state 4 ∧
     (TRICAL_estimate_get inst b0 s0).2.1 2 = inst.state 5 ∧
     (TRICAL_estimate_get inst b0 s0).2.1 3 = inst.state 4 ∧
     (TRICAL_estimate_get inst b0 s0).2.1 4 = inst.state 6 ∧
     (TRICAL_estimate_get inst b0 s0).2.1 5 = inst.state 7 ∧
     (TRICAL_estimate_get inst b0 s0).2.1 6 = inst.state 5 ∧
     (TRICAL_estimate_get inst b0 s0).2.1 7 = inst.state 7 ∧
     (TRICAL_estimate_get inst b0 s0).2.1 8 = inst.state 8) ∧
    (∀ r, r < 3 → ∀ c, c < 3 →
      (TRICAL_estimate_get inst b0 s0).2.1 (r * 3 + c) =
        (TRICAL_estimate_get inst b0 s0).2.1 (c * 3 + r)) ∧
    (∀ i, i < 3 → (TRICAL_estimate_get_ext inst b0 s0 bv0 sv0).2.2.1 i =
      inst.state_covariance (i * 9 + i)) ∧
    ((TRICAL_estimate_get_ext inst b0 s0 bv0 sv0).2.2.2.1 0 =
        inst.state_covariance (3 * 9 + 3) ∧
     (TRICAL_estimate_get_ext inst b0 s0 bv0 sv0).2.2.2.1 1 =
        inst.state_covariance (4 * 9 + 4) ∧
     (TRICAL_estimate_get_ext inst b0 s0 bv0 sv0).2.2.2.1 2 =
        inst.state_covariance (5 * 9 + 5) ∧
     (TRICAL_estimate_get_ext inst b0 s0 bv0 sv0).2.2.2.1 3 =
        inst.state_covariance (4 * 9 + 4) ∧
     (TRICAL_estimate_get_ext inst b0 s0 bv0 sv0).2.2.2.1 4 =
        inst.state_covariance (6 * 9 + 6) ∧
     (TRICAL_estimate_get_ext inst b0 s0 bv0 sv0).2.2.2.1 5 =
        inst.state_covariance (7 * 9 + 7) ∧
     (TRICAL_estimate_get_ext inst b0 s0 bv0 sv0).2.2.2.1 6 =
        inst.state_covariance (5 * 9 + 5) ∧
     (TRICAL_estimate_get_ext inst b0 s0 bv0 sv0).2.2.2.1 7 =
        inst.state_covariance (7 * 9 + 7) ∧
     (TRICAL_estimate_get_ext inst b0 s0 bv0 sv0).2.2.2.1 8 =
        inst.state_covariance (8 * 9 + 8)) := by
  refine ⟨?_, ⟨rfl, rfl, rfl, rfl, rfl, rfl, rfl, rfl, rfl⟩, ?_, ?_,
    ⟨rfl, rfl, rfl, rfl, rfl, rfl, rfl, rfl, rfl⟩⟩
  · intro i hi
    interval_cases i <;> rfl
  · intro r hr c hc
    interval_cases r <;> interval_cases c <;> rfl
  · intro i hi
    interval_cases i <;> rfl

/-- Witness for C5 at a concrete instance and index. -/
theorem C5_estimate_get_spec_witness :
    (0:ℕ) < 3 ∧
    (TRICAL_estimate_get normSetEx (fun _ => 0) (fun _ => 0)).1 0 = normSetEx.state 0 :=
  ⟨by norm_num, (C5_estimate_get_spec normSetEx (fun _ => 0) (fun _ => 0)
    (fun _ => 0) (fun _ => 0)).1 0 (by norm_num)⟩

/-- C9: the read-only operations — `TRICAL_norm_get`, `TRICAL_noise_get`,
`TRICAL_measurement_count_get`, `TRICAL_estimate_get`,
`TRICAL_estimate_get_ext` and `TRICAL_measurement_calibrate` — leave every
field of the instance unchanged; only the update cycle and the two
configuration setters mutate the Calibration State. -/
theorem C9_readonly_frame (inst : TRICAL_instance_t) (b0 s0 bv0 sv0 m c0 : ℕ → ℝ) :
    (TRICAL_norm_get inst).2 = inst ∧
    (TRICAL_noise_get inst).2 = inst ∧
    (TRICAL_measurement_count_get inst).2 = inst ∧
    (TRICAL_estimate_get inst b0 s0).2.2 = inst ∧
    (TRICAL_estimate_get_ext inst b0 s0 bv0 sv0).2.2.2.2 = inst ∧
    (TRICAL_measurement_calibrate inst m c0).2 = inst :=
  ⟨rfl, rfl, rfl, rfl, rfl, rfl⟩

theorem cholElemFlat_zeroA (dim : ℕ) (mul : ℝ) :
    ∀ m i j, i + j ≤ m → cholElemFlat dim (fun _ => 0) mul i j = 0 := by
  intro m
  induction m with
  | zero =>
    intro i j h
    have hi : i = 0 := by omega
    have hj : j = 0 := by omega
    subst hi
    subst hj
    rw [cholElemFlat_diag]
    simp [fsqrt]
  | succ m IH =>
    intro i j h
    rw [cholElemFlat_eq]
    by_cases hji : j < i
    · rw [if_pos hji]
      have hsum : ∑ p in Finset.range j,
          cholElemFlat dim (fun _ => 0) mul i p * cholElemFlat dim (fun _ => 0) mul j p = 0 := by
        refine Finset.sum_eq_zero fun p hp => ?_
        have hp' := Finset.mem_range.mp hp
        rw [IH i p (by omega)]
        ring
      rw [hsum]
      simp
    · rw [if_neg hji]
      have hsum : ∑ p in Finset.range i, cholElemFlat dim (fun _ => 0) mul i p ^ 2 = 0 := by
        refine Finset.sum_eq_zero fun p hp => ?_
        have hp' := Finset.mem_range.mp hp
        rw [IH i p (by omega)]
        exact zero_pow two_ne_zero
      rw [hsum]
      simp [fsqrt]

theorem cholElemFlat_zero (dim : ℕ) (mul : ℝ) (i j : ℕ) :
    cholElemFlat dim (fun _ => 0) mul i j = 0 :=
  cholElemFlat_zeroA dim mul (i + j) i j le_rfl

theorem matrix_cholesky_zero (dim : ℕ) (mul : ℝ) (idx : ℕ) :
    matrix_cholesky_decomp_scale_f dim (fun _ => 0) (fun _ => 0) mul idx = 0 := by
  by_cases hrep : ∃ i j, j ≤ i ∧ i < dim ∧ idx = i + j * dim
  · obtain ⟨i, j, hj, hi, rfl⟩ := hrep
    rw [cholesky_decomp_spec dim (fun _ => 0) (fun _ => 0) mul hi hj]
    exact cholElemFlat_zero dim mul i j
  · push_neg at hrep
    exact cholesky_decomp_frame dim (fun _ => 0) (fun _ => 0) mul
      (fun i j hj hi => hrep i j hj hi)

theorem updateEx_sqrt (idx : ℕ) : trical_covariance_sqrt updateEx idx = 0 := by
  have h : updateEx.state_covariance = (fun _ => (0:ℝ)) := rfl
  unfold trical_covariance_sqrt
  rw [h]
  exact matrix_cholesky_zero 9 (9 + ukf_lambda) idx

theorem updateEx_sigma (s : ℕ) :
    trical_sigma_point updateEx (trical_covariance_sqrt updateEx) s = fun _ => 0 := by
  funext d
  unfold trical_sigma_point
  split_ifs
  · rfl
  · rw [updateEx_sqrt]
    simp [updateEx]
  · rw [updateEx_sqrt]
    simp [updateEx]

theorem scaleMatrixOf_zero : scaleMatrixOf (fun _ => 0) = 0 := by
  ext i j
  fin_cases i <;> fin_cases j <;>
    simp [scaleMatrixOf, Matrix.vecHead, Matrix.vecTail]

theorem calibrate_zero_state (meas : ℕ → ℝ) (c : ℕ) :
    trical_measurement_calibrate (fun _ => 0) meas c = 0 := by
  unfold trical_measurement_calibrate
  by_cases h : c < 3
  · rw [dif_pos h, scaleMatrixOf_zero]
    have hinv : (0 : Matrix (Fin 3) (Fin 3) ℝ)⁻¹ = 0 :=
      Matrix.nonsing_inv_apply_not_isUnit _
        (by rw [Matrix.det_zero ⟨0⟩]; exact not_isUnit_zero)
    rw [hinv, Matrix.zero_mulVec]
    rfl
  · rw [dif_neg h]

theorem updateEx_model_zero (meas : ℕ → ℝ) (s : ℕ) :
    trical_measurement_model
      (trical_sigma_point updateEx (trical_covariance_sqrt updateEx) s) meas = 0 := by
  rw [updateEx_sigma s]
  unfold trical_measurement_model
  refine Finset.sum_eq_zero fun c _ => ?_
  rw [calibrate_zero_state meas c]
  exact zero_pow two_ne_zero

theorem updateEx_mean_zero (meas : ℕ → ℝ) :
    trical_predicted_measurement_mean updateEx meas = 0 := by
  unfold trical_predicted_measurement_mean
  refine Finset.sum_eq_zero fun s _ => ?_
  rw [updateEx_model_zero meas s]
  ring

/-- The zero instance with zero measurement noise has predicted measurement
variance exactly zero: all sigma points coincide with the zero mean. -/
theorem updateEx_var_zero (meas : ℕ → ℝ) :
    trical_predicted_measurement_variance updateEx meas = 0 := by
  unfold trical_predicted_measurement_variance
  have h1 : ∑ s in Finset.range 19, ukf_weight s *
      (trical_measurement_model
          (trical_sigma_point updateEx (trical_covariance_sqrt updateEx) s) meas
        - trical_predicted_measurement_mean updateEx meas) ^ 2 = 0 := by
    refine Finset.sum_eq_zero fun s _ => ?_
    rw [updateEx_model_zero meas s, updateEx_mean_zero meas]
    ring
  rw [h1]
  norm_num [updateEx]

/-- C4: whenever the predicted measurement variance computed during the update
cycle is non-positive, the correction is skipped: the error state and the
state covariance are identical before and after `TRICAL_estimate_update`, and
the measurement counter is still incremented by one. -/
theorem C4_degenerate_variance_skip (inst : TRICAL_instance_t) (measurement : ℕ → ℝ)
    (h : trical_predicted_measurement_variance inst measurement ≤ 0) :
    (TRICAL_estimate_update inst measurement).state = inst.state ∧
    (TRICAL_estimate_update inst measurement).state_covariance = inst.state_covariance ∧
    (TRICAL_estimate_update inst measurement).measurement_count =
      inst.measurement_count + 1 := by
  have hiter : trical_filter_iterate inst measurement = inst := by
    unfold trical_filter_iterate
    rw [if_pos h]
  unfold TRICAL_estimate_update
  rw [hiter]
  exact ⟨rfl, rfl, rfl⟩

/-- Witness for C4: the zero instance with zero noise has variance 0 ≤ 0 and
the update still increments the counter. -/
theorem C4_degenerate_variance_skip_witness :
    trical_predicted_measurement_variance updateEx (fun _ => 0) ≤ 0 ∧
    (TRICAL_estimate_update updateEx (fun _ => 0)).measurement_count =
      updateEx.measurement_count + 1 :=
  ⟨le_of_eq (updateEx_var_zero (fun _ => 0)),
   (C4_degenerate_variance_skip updateEx (fun _ => 0)
     (le_of_eq (updateEx_var_zero (fun _ => 0)))).2.2⟩

/-- `TRICAL_estimate_update` never writes `field_norm` or
`measurement_noise`. -/
theorem estimate_update_fields (inst : TRICAL_instance_t) (m : ℕ → ℝ) :
    (TRICAL_estimate_update inst m).field_norm = inst.field_norm ∧
    (TRICAL_estimate_update inst m).measurement_noise = inst.measurement_noise := by
  unfold TRICAL_estimate_update trical_filter_iterate
  by_cases hv : trical_predicted_measurement_variance inst m ≤ 0
  · rw [if_pos hv]
    exact ⟨rfl, rfl⟩
  · rw [if_neg hv]
    exact ⟨rfl, rfl⟩

/-- A single public operation whose precondition holds preserves positivity of
the field norm and the measurement noise. -/
theorem op_step_preserves (inst : TRICAL_instance_t) (op : TRICAL_op)
    (hpre : TRICAL_op_pre op) (h1 : 0 < inst.field_norm)
    (h2 : 0 < inst.measurement_noise) :
    0 < (TRICAL_op_step inst op).field_norm ∧
    0 < (TRICAL_op_step inst op).measurement_noise := by
  cases op with
  | init =>
    constructor <;> norm_num [TRICAL_op_step, TRICAL_init]
  | norm_set n =>
    have hn : 0 < n := hpre
    by_cases hnear : |n - inst.field_norm| < FLT_EPSILON
    · simp only [TRICAL_op_step]
      rw [norm_set_noop hnear]
      exact ⟨h1, h2⟩
    · obtain ⟨_, _, hf, hns, _⟩ := norm_set_state_far hnear
      simp only [TRICAL_op_step]
      rw [hf, hns]
      exact ⟨hn, h2⟩
  | noise_set s =>
    exact ⟨h1, hpre⟩
  | estimate_update m =>
    obtain ⟨e1, e2⟩ := estimate_update_fields inst m
    simp only [TRICAL_op_step]
    rw [e1, e2]
    exact ⟨h1, h2⟩
  | norm_get => exact ⟨h1, h2⟩
  | noise_get => exact ⟨h1, h2⟩
  | measurement_count_get => exact ⟨h1, h2⟩
  | estimate_get b s => exact ⟨h1, h2⟩
  | estimate_get_ext b s bv sv => exact ⟨h1, h2⟩
  | measurement_calibrate m c => exact ⟨h1, h2⟩

theorem ops_preserve (ops : List TRICAL_op) :
    ∀ inst : TRICAL_instance_t, (∀ op ∈ ops, TRICAL_op_pre op) →
      0 < inst.field_norm → 0 < inst.measurement_noise →
      0 < (ops.foldl TRICAL_op_step inst).field_norm ∧
      0 < (ops.foldl TRICAL_op_step inst).measurement_noise := by
  induction ops with
  | nil =>
    intro inst _ h1 h2
    exact ⟨h1, h2⟩
  | cons op rest IH =>
    intro inst hpre h1 h2
    obtain ⟨g1, g2⟩ :=
      op_step_preserves inst op (hpre op (List.mem_cons_self op rest)) h1 h2
    exact IH _ (fun o ho => hpre o (List.mem_cons_of_mem op ho)) g1 g2

/-- C10: for every sequence of public operations starting from `TRICAL_init`
whose arguments satisfy their preconditions (positive norm for the norm
setter, positive noise for the noise setter), the invariant
`field_norm > 0 ∧ measurement_noise > 0` holds after every operation: init
sets them to 1.0 and 1e-6, the setters only store asserted-positive values,
and no other operation writes them. -/
theorem C10_positivity_invariant (inst0 : TRICAL_instance_t) (ops : List TRICAL_op)
    (hpre : ∀ op ∈ ops, TRICAL_op_pre op) :
    0 < (ops.foldl TRICAL_op_step (TRICAL_init inst0)).field_norm ∧
    0 < (ops.foldl TRICAL_op_step (TRICAL_init inst0)).measurement_noise :=
  ops_preserve ops (TRICAL_init inst0) hpre
    (by norm_num [TRICAL_init]) (by norm_num [TRICAL_init])

/-- Witness for C10: a concrete operation sequence satisfying the
preconditions. -/
theorem C10_positivity_invariant_witness :
    0 < (([TRICAL_op.norm_set 2, TRICAL_op.noise_set 3,
      TRICAL_op.estimate_update (fun _ => 0)]).foldl TRICAL_op_step
        (TRICAL_init normSetEx)).field_norm := by
  refine (C10_positivity_invariant normSetEx _ ?_).1
  intro op hop
  simp only [List.mem_cons, List.not_mem_nil, or_false] at hop
  rcases hop with rfl | rfl | rfl
  · norm_num [TRICAL_op_pre]
  · norm_num [TRICAL_op_pre]
  · norm_num [TRICAL_op_pre]

end TRICAL
